import Mathlib

/-!
# pass-server: the indexer pipeline and the compatibility proxy

A shallow embedding of `cmd/pass-indexer/main.go` and `cmd/pass-proxy/main.go`.

Go strings and byte slices are lists of byte values (`Bytes`).  Functions of the
Go standard library and of `golang.org/x/...` that the programs call are either
written out (the `strings` and `path` helpers, `filepath.Walk`, `filepath.Match`
for the one pattern used, the `range` loop over a string) or taken as fields of
an environment record (`Env`, `ProxyEnv`) when they are table driven, random or
talk to the operating system (NFKD, armor, encryption, JSON, the file system,
HTTP).  Paths follow the Unix rules (separator `/`), where `path` and
`path/filepath` agree.
-/

set_option autoImplicit false

namespace PassServer

/-! ## Strings -/

/-- Go `string` / `[]byte`: a sequence of byte values. -/
abbrev Bytes := List Nat

/-- The bytes of an ASCII literal. -/
def str (s : String) : Bytes := s.toList.map Char.toNat

/-- Go `strings.HasPrefix(s, p)`. -/
def HasPrefix (s p : Bytes) : Bool := p.isPrefixOf s

/-- Go `strings.HasSuffix(s, p)`. -/
def HasSuffix (s p : Bytes) : Bool := p.isSuffixOf s

/-- Go `strings.TrimPrefix(s, p)`. -/
def TrimPrefix (s p : Bytes) : Bytes :=
  if HasPrefix s p then s.drop p.length else s

/-- Go `strings.TrimSuffix(s, p)`. -/
def TrimSuffix (s p : Bytes) : Bytes :=
  if HasSuffix s p then s.take (s.length - p.length) else s

/-! ## The `path` package (Unix `path/filepath` agrees with it) -/

/-- The separator byte `/`. -/
def slash : Nat := 47

/-- The byte `.`. -/
def dot : Nat := 46

/-- The elements of a path between separators (empty elements included). -/
def splitSlash : Bytes → List Bytes
  | [] => [[]]
  | c :: cs =>
    if c = slash then [] :: splitSlash cs
    else
      match splitSlash cs with
      | [] => [[c]]
      | h :: t => (c :: h) :: t

/-- Path elements joined with single separators. -/
def joinSlash : List Bytes → Bytes
  | [] => []
  | [x] => x
  | x :: y :: rest => x ++ slash :: joinSlash (y :: rest)

/-- The element loop of Go `path.Clean`: `out` is the output buffer as a stack of
elements, last element first.  Empty and `.` elements are dropped; `..` removes
the last real element, is kept when the path is not rooted and nothing is left
to remove, and is dropped at the root. -/
def cleanLoop (rooted : Bool) : List Bytes → List Bytes → List Bytes
  | [], out => out
  | e :: es, out =>
    if e = [] ∨ e = [dot] then cleanLoop rooted es out
    else if e = [dot, dot] then
      match out with
      | [] => if rooted then cleanLoop rooted es [] else cleanLoop rooted es [e]
      | top :: below =>
        if top = [dot, dot] then cleanLoop rooted es (e :: top :: below)
        else cleanLoop rooted es below
    else cleanLoop rooted es (e :: out)

/-- Go `path.Clean`. -/
def Clean (p : Bytes) : Bytes :=
  match p with
  | [] => [dot]
  | c :: _ =>
    let rooted : Bool := decide (c = slash)
    let out := (cleanLoop rooted (splitSlash p) []).reverse
    if rooted then slash :: joinSlash out
    else if out = [] then [dot] else joinSlash out

/-- Go `path.Join`: the non-empty elements joined by `/` and cleaned; the empty
string when every element is empty. -/
def Join (elems : List Bytes) : Bytes :=
  match elems.filter (fun e => e ≠ []) with
  | [] => []
  | es => Clean (joinSlash es)

/-- The part of a path up to and including its last separator (Go `path.Split`,
first result). -/
def splitDir : Bytes → Bytes
  | [] => []
  | c :: cs =>
    if slash ∈ cs then c :: splitDir cs
    else if c = slash then [c] else []

/-- Go `path.Dir` and Unix `filepath.Dir`. -/
def Dir (p : Bytes) : Bytes := Clean (splitDir p)

/-- A path without its trailing separators. -/
def stripTrailingSlashes (p : Bytes) : Bytes :=
  (p.reverse.dropWhile (fun c => c = slash)).reverse

/-- What follows the last separator of a path. -/
def afterLastSlash (p : Bytes) : Bytes :=
  (p.reverse.takeWhile (fun c => c ≠ slash)).reverse

/-- Go `path.Base`. -/
def Base (p : Bytes) : Bytes :=
  if p = [] then [dot]
  else
    let q := afterLastSlash (stripTrailingSlashes p)
    if q = [] then [slash] else q

/-- Go `filepath.Match("*.gpg", name)`: the star matches any run of bytes other
than the separator, the rest of the pattern is literal. -/
def matchGpg (name : Bytes) : Bool :=
  HasSuffix name (str ".gpg") && !((name.take (name.length - 4)).contains slash)

/-! ## Recipients -/

/-- An `openpgp.Entity`, reduced to the fingerprint of its primary key (the
array `PrimaryKey.Fingerprint` of 20 bytes) and a tag that stands for the rest
of the key material. -/
structure Entity where
  Fingerprint : Bytes
  tag : Nat
  size : Fingerprint.length = 20
  deriving DecidableEq, Repr

/-- One upper-case hexadecimal digit. -/
def hexDigit (d : Nat) : Nat := if d < 10 then 48 + d else 55 + d

/-- Go `fmt.Sprintf("%X", b)` on a byte slice: two upper-case hexadecimal digits
for every byte, leading zeros included. -/
def hexBytes : Bytes → Bytes
  | [] => []
  | b :: rest => hexDigit (b % 256 / 16) :: hexDigit (b % 16) :: hexBytes rest

/-- Go slice expression `b[lo:hi]`. -/
def slice (b : Bytes) (lo hi : Nat) : Bytes := (b.take hi).drop lo

/-- Method `PublicKey.KeyIdString`: `fmt.Sprintf("%X", pk.Fingerprint[12:20])`,
always 16 digits. -/
def Entity.KeyIdString (e : Entity) : Bytes := hexBytes (slice e.Fingerprint 12 20)

/-- Method `PublicKey.KeyIdShortString`: `fmt.Sprintf("%X", pk.Fingerprint[16:20])`,
always 8 digits. -/
def Entity.KeyIdShortString (e : Entity) : Bytes := hexBytes (slice e.Fingerprint 16 20)

/-- The test of the inner loop of `matchKeys` (main.go lines 107-108). -/
def idMatches (id : Bytes) (entity : Entity) : Bool :=
  id == entity.KeyIdString || id == entity.KeyIdShortString

/-- The inner loop of `matchKeys` (lines 106-112): the first entity of `el` that
matches `id`, or `none` when the loop falls through to line 113. -/
def matchKey (id : Bytes) : List Entity → Option Entity
  | [] => none
  | entity :: rest => if idMatches id entity then some entity else matchKey id rest

/-- The outer loop of `matchKeys` (lines 105-115), with `rv` the list built so far. -/
def matchKeysLoop (el : List Entity) : List Bytes → List Entity → List Entity × Option Bytes
  | [], rv => (rv, none)
  | id :: ids, rv =>
    match matchKey id el with
    | some entity => matchKeysLoop el ids (rv ++ [entity])
    | none => (rv, some (str "key with ID " ++ id ++ str " not found"))

/-- Function `matchKeys` (main.go lines 102-116): the resolved list and the error. -/
def matchKeys (el : List Entity) (ids : List Bytes) : List Entity × Option Bytes :=
  matchKeysLoop el ids []

/-! ## The directory walk -/

/-- The part of `os.FileInfo` the program reads. -/
structure FileInfo where
  Name : Bytes
  IsDir : Bool
  deriving DecidableEq, Repr

/-- The `error` values that travel through `filepath.Walk`: the sentinel
`filepath.SkipDir` or any other error (its text). -/
inductive WalkError where
  | SkipDir : WalkError
  | other : Bytes → WalkError
  deriving DecidableEq, Repr

mutual
/-- What `os.Lstat` and the directory listing report at one path. -/
inductive Node where
  /-- `Lstat` succeeds and the entry is not a directory. -/
  | file : Node
  /-- A directory whose names can be read; the entries are in the order
  `readDirNames` returns them (sorted by name). -/
  | dir : Entries → Node
  /-- A directory whose names cannot be read (with the error). -/
  | unreadable : Bytes → Node
  /-- An entry on which `Lstat` fails (with the error). -/
  | noStat : Bytes → Node
/-- The named entries of a directory. -/
inductive Entries where
  | nil : Entries
  | cons : Bytes → Node → Entries → Entries
end

/-- Whether `Lstat` reports a directory. -/
def Node.IsDir : Node → Bool
  | .dir _ => true
  | .unreadable _ => true
  | _ => false

/-- The nil `FileInfo` that `walk` passes along with an `Lstat` error; the
callback must not read it. -/
def nilInfo : FileInfo := ⟨[], false⟩

/-- The name `os.Lstat(root).Name()` reports for the root of a walk: the root
without trailing separators, cut after its last separator. -/
def osBasename (name : Bytes) : Bytes :=
  if name = [] then []
  else
    let q := afterLastSlash (stripTrailingSlashes name)
    if q = [] then [slash] else q

mutual
/-- Go `filepath.walk` over the callback `fn`, which threads the state `σ` the
closure captures.  The callback is called on the directory itself (with the
error of reading its names, if any) before its entries are visited.  The case
`noStat` does not arise here: both callers handle a failed `Lstat` themselves. -/
def walk {σ : Type} (fn : σ → Bytes → FileInfo → Option WalkError → σ × Option WalkError)
    (path : Bytes) (info : FileInfo) : Node → σ → σ × Option WalkError
  | .file, s => fn s path info none
  | .noStat e, s => fn s path nilInfo (some (.other e))
  | .unreadable e, s => fn s path info (some (.other e))
  | .dir es, s =>
    match fn s path info none with
    | (s1, some err1) => (s1, some err1)
    | (s1, none) => walkEntries fn path es s1
/-- The loop of `filepath.walk` over the names of a directory. -/
def walkEntries {σ : Type} (fn : σ → Bytes → FileInfo → Option WalkError → σ × Option WalkError)
    (path : Bytes) : Entries → σ → σ × Option WalkError
  | .nil, s => (s, none)
  | .cons name n rest, s =>
    let filename := Join [path, name]
    match n with
    | .noStat e =>
      match fn s filename nilInfo (some (.other e)) with
      | (s1, none) => walkEntries fn path rest s1
      | (s1, some .SkipDir) => walkEntries fn path rest s1
      | (s1, some err) => (s1, some err)
    | _ =>
      match walk fn filename ⟨name, n.IsDir⟩ n s with
      | (s1, none) => walkEntries fn path rest s1
      | (s1, some err) =>
        if !n.IsDir || err ≠ .SkipDir then (s1, some err)
        else walkEntries fn path rest s1
end

/-- Go `filepath.Walk(root, fn)` on the tree the file system shows at `root`,
starting from the callback state `s`. -/
def Walk {σ : Type} (fn : σ → Bytes → FileInfo → Option WalkError → σ × Option WalkError)
    (root : Bytes) (tree : Node) (s : σ) : σ × Option WalkError :=
  let r :=
    match tree with
    | .noStat e => fn s root nilInfo (some (.other e))
    | n => walk fn root ⟨osBasename root, n.IsDir⟩ n s
  match r with
  | (s1, some .SkipDir) => (s1, none)
  | other => other

/-- The callback `walkFn` of `makeTarget` (main.go lines 120-137); the captured
slice `secrets` is the state. -/
def walkFn (store : Bytes) (secrets : List Bytes) (path : Bytes) (info : FileInfo)
    (err : Option WalkError) : List Bytes × Option WalkError :=
  match err with
  | some e => (secrets, some e)
  | none =>
    if info.IsDir && info.Name == str ".git" then (secrets, some .SkipDir)
    else if info.IsDir then (secrets, none)
    else if Dir path == store then (secrets, none)
    else if matchGpg info.Name then (secrets ++ [path], none)
    else (secrets, none)

/-- The enumeration of `makeTarget` (lines 119-137 and 145): the slice `secrets`
after the walk, and the error `filepath.Walk` returned. -/
def enumerate (store : Bytes) (tree : Node) : List Bytes × Option WalkError :=
  Walk (walkFn store) store tree []

/-! ## The environment of the indexer -/

/-- An index row: the struct `item` of `makeTarget` (main.go lines 138-143). -/
structure item where
  Domain : Bytes
  Path : Bytes
  Username : Bytes
  UsernameNormalized : Bytes
  deriving DecidableEq, Repr

/-- A call to the operating system, as it is logged. -/
inductive Effect where
  /-- Call `os.Open(name)`. -/
  | osOpen (name : Bytes)
  /-- Call `filepath.Walk(root, ...)`. -/
  | walkTree (root : Bytes)
  /-- Call `os.MkdirAll(path, perm)`. -/
  | mkdirAll (path : Bytes) (perm : Nat)
  /-- Call `ioutil.WriteFile(name, data, perm)`. -/
  | writeFile (name : Bytes) (data : Bytes) (perm : Nat)
  deriving DecidableEq, Repr

/-- The state of the outside world: the calls made so far, oldest first.  What
the operating system answers may depend on it. -/
abbrev World := List Effect

/-- The operating system and the libraries the indexer calls.  Every answer of
the operating system is a function of the calls made before it. -/
structure Env where
  /-- The error of `os.Open(name)`, if any. -/
  Open : World → Bytes → Option Bytes
  /-- The error of closing the file opened at `name`, if any. -/
  Close : World → Bytes → Option Bytes
  /-- The tokens a `bufio.Scanner` yields over the file at `name`, and `s.Err()`. -/
  scanLines : World → Bytes → List Bytes × Option Bytes
  /-- The bytes `io.Copy` reads from the file opened at `name`, or its error. -/
  readAll : World → Bytes → Except Bytes Bytes
  /-- The tree `filepath.Walk` sees at a root. -/
  tree : World → Bytes → Node
  /-- The error of `os.MkdirAll(path, perm)`, if any. -/
  MkdirAll : World → Bytes → Nat → Option Bytes
  /-- The error of `ioutil.WriteFile(name, data, perm)`, if any. -/
  WriteFile : World → Bytes → Bytes → Nat → Option Bytes
  /-- Result of `openpgp.ReadKeyRing` on the file opened at `name`. -/
  ReadKeyRing : World → Bytes → List Entity × Option Bytes
  /-- Result of `transform.String(norm.NFKD, s)`: the decomposed string or the error. -/
  NFKD : Bytes → Except Bytes Bytes
  /-- Result of `json.NewEncoder(buf).Encode(list)`: the bytes written or the error. -/
  jsonEncode : List item → Except Bytes Bytes
  /-- Result of `armor.Encode(buf, blockType, headers)` followed by writing `data`
  and closing: the armored bytes in the buffer, or the first error. -/
  armorEncode : Bytes → List (Bytes × Bytes) → Bytes → Except Bytes Bytes
  /-- Result of `openpgp.Encrypt(w, el, nil, nil, nil)` followed by writing `data`
  and closing: the bytes written to `w`, or the first error. -/
  Encrypt : List Entity → Bytes → Except Bytes Bytes

/-! ## normalize -/

/-- Whether `lo ≤ b ≤ hi`. -/
def inRange (b lo hi : Nat) : Bool := decide (lo ≤ b) && decide (b ≤ hi)

/-- The range UTF-8 accepts for the second byte after the first byte `b0` of a
three or four byte sequence. -/
def acceptRange (b0 : Nat) : Nat × Nat :=
  if b0 = 0xE0 then (0xA0, 0xBF)
  else if b0 = 0xED then (0x80, 0x9F)
  else if b0 = 0xF0 then (0x90, 0xBF)
  else if b0 = 0xF4 then (0x80, 0x8F)
  else (0x80, 0xBF)

/-- The number of bytes a `range` loop over a string advances at the head of
`s`: the width of a well-formed UTF-8 sequence, and 1 for anything else. -/
def runeLen : Bytes → Nat
  | [] => 0
  | b0 :: rest =>
    if b0 < 0x80 then 1
    else if inRange b0 0xC2 0xDF then
      match rest with
      | b1 :: _ => if inRange b1 0x80 0xBF then 2 else 1
      | _ => 1
    else if inRange b0 0xE0 0xEF then
      match rest with
      | b1 :: b2 :: _ =>
        if inRange b1 (acceptRange b0).1 (acceptRange b0).2 && inRange b2 0x80 0xBF then 3 else 1
      | _ => 1
    else if inRange b0 0xF0 0xF4 then
      match rest with
      | b1 :: b2 :: b3 :: _ =>
        if inRange b1 (acceptRange b0).1 (acceptRange b0).2 && inRange b2 0x80 0xBF
            && inRange b3 0x80 0xBF then 4 else 1
      | _ => 1
    else 1

/-- The loop `for i := range rs` of `normalize` (lines 238-242): `rest` is `rs`
from index `i` on and `b` the slice built so far; each round looks at the byte
`rs[i]` and advances by one rune.  `fuel` bounds the number of rounds. -/
def normalizeLoop : Nat → Bytes → Bytes → Bytes
  | 0, _, b => b
  | _ + 1, [], b => b
  | fuel + 1, c :: cs, b =>
    normalizeLoop fuel ((c :: cs).drop (runeLen (c :: cs))) (if c < 0x80 then b ++ [c] else b)

/-- Function `normalize` (main.go lines 232-244). -/
def normalize (env : Env) (s : Bytes) : Bytes :=
  match env.NFKD s with
  | .error _ => []
  | .ok rs => normalizeLoop rs.length rs []

/-! ## makeTarget, armorSecrets, writeIndex -/

/-- The body of the index loop of `makeTarget` (lines 147-156) for one secret. -/
def indexItem (env : Env) (store secret : Bytes) : item :=
  let secret1 := TrimSuffix (TrimPrefix secret store) (str ".gpg")
  let username := Base secret1
  let secret2 := TrimPrefix (Dir secret1) (str "/")
  let domain := Base secret2
  { Domain := domain, Path := secret2, Username := username,
    UsernameNormalized := normalize env username }

/-- The index loop of `makeTarget` (lines 146-157), with `list` the slice built
so far. -/
def indexLoop (env : Env) (store : Bytes) : List Bytes → List item → List item
  | [], list => list
  | secret :: rest, list => indexLoop env store rest (list ++ [indexItem env store secret])

/-- The directory `armorSecrets` derives for a secret (line 174). -/
def armorDir (store secret : Bytes) : Bytes := TrimPrefix (Dir secret) store

/-- The name of the file `armorSecrets` writes for a secret (lines 197-198). -/
def armorName (store target secret : Bytes) : Bytes :=
  Join [target, armorDir store secret, TrimSuffix (Base secret) (str ".gpg") ++ str ".asc"]

/-- The body of the loop of `armorSecrets` (lines 174-201) for one secret: the
world after it and the error it returns with, if any.  The deferred close of the
input, whose result the code drops, is left out. -/
def armorSecret (env : Env) (store target secret : Bytes) (w : World) : World × Option Bytes :=
  let dir := armorDir store secret
  let w1 := w ++ [.mkdirAll (Join [target, dir]) 0o700]
  match env.MkdirAll w (Join [target, dir]) 0o700 with
  | some err => (w1, some err)
  | none =>
    let w2 := w1 ++ [.osOpen secret]
    match env.Open w1 secret with
    | some err => (w2, some err)
    | none =>
      match env.readAll w2 secret with
      | .error err => (w2, some err)
      | .ok input =>
        match env.armorEncode (str "PGP MESSAGE") [] input with
        | .error err => (w2, some err)
        | .ok output =>
          let name := armorName store target secret
          (w2 ++ [.writeFile name output 0o600], env.WriteFile w2 name output 0o600)

/-- Function `armorSecrets` (main.go lines 172-204). -/
def armorSecrets (env : Env) (store target : Bytes) : List Bytes → World → World × Option Bytes
  | [], w => (w, none)
  | secret :: rest, w =>
    match armorSecret env store target secret w with
    | (w1, some err) => (w1, some err)
    | (w1, none) => armorSecrets env store target rest w1

/-- Function `writeIndex` (main.go lines 206-230). -/
def writeIndex (env : Env) (target : Bytes) (el : List Entity) (index : Bytes) (w : World) :
    World × Option Bytes :=
  match env.Encrypt el index with
  | .error err => (w, some err)
  | .ok cipher =>
    match env.armorEncode (str "PGP MESSAGE") [] cipher with
    | .error err => (w, some err)
    | .ok b =>
      let name := Join [target, str "index.asc"]
      (w ++ [.writeFile name b 0o600], env.WriteFile w name b 0o600)

/-- Function `makeTarget` (main.go lines 118-170).  The error `filepath.Walk`
returns is assigned to `err` on line 145 and overwritten on line 160 before it
is read, so it has no part in the result. -/
def makeTarget (env : Env) (store target : Bytes) (el : List Entity) (w : World) :
    World × Option Bytes :=
  let w1 := w ++ [.walkTree store]
  let (secrets, _err) := enumerate store (env.tree w store)
  let list := indexLoop env store secrets []
  match env.jsonEncode list with
  | .error err => (w1, some err)
  | .ok index =>
    match armorSecrets env store target secrets w1 with
    | (w2, some err) => (w2, some err)
    | (w2, none) => writeIndex env target el index w2

/-! ## readIDs, readKeyring, main -/

/-- The scan loop of `readIDs` (lines 73-79) over the tokens of the scanner. -/
def readIDsLoop : List Bytes → List Bytes → List Bytes
  | [], ids => ids
  | id :: rest, ids => if id = [] then readIDsLoop rest ids else readIDsLoop rest (ids ++ [id])

/-- Function `readIDs` (main.go lines 67-85): the world, `ids` and `err`. -/
def readIDs (env : Env) (store : Bytes) (w : World) : World × List Bytes × Option Bytes :=
  let name := Join [store, str ".gpg-id"]
  let w1 := w ++ [.osOpen name]
  match env.Open w name with
  | some err => (w1, [], some err)
  | none =>
    let ids := readIDsLoop (env.scanLines w1 name).1 []
    match (env.scanLines w1 name).2 with
    | some err => (w1, ids, some err)
    | none => (w1, ids, env.Close w1 name)

/-- Function `readKeyring` (main.go lines 87-100): the world, `el` and `err`; the
deferred close replaces a nil `err` by its own error. -/
def readKeyring (env : Env) (keyring : Bytes) (w : World) : World × List Entity × Option Bytes :=
  let w1 := w ++ [.osOpen keyring]
  match env.Open w keyring with
  | some err => (w1, [], some err)
  | none =>
    let (el, err) := env.ReadKeyRing w1 keyring
    match env.Close w1 keyring, err with
    | some e, none => (w1, el, some e)
    | _, _ => (w1, el, err)

/-- Function `main` of the indexer (main.go lines 33-65) after flag parsing, on
the values of the three flags: the world when the process ends and the error
`log.Fatalln` reports (`none` for a normal exit). -/
def main (env : Env) (keyring store target : Bytes) (w : World) : World × Option Bytes :=
  match readIDs env store w with
  | (w1, _, some err) => (w1, some err)
  | (w1, ids, none) =>
    match readKeyring env keyring w1 with
    | (w2, _, some err) => (w2, some err)
    | (w2, el, none) =>
      match matchKeys el ids with
      | (_, some err) => (w2, some err)
      | (el1, none) => makeTarget env store target el1 w2

/-! ## The compatibility proxy (cmd/pass-proxy/main.go) -/

/-- The parts of an `http.Request` the proxy reads. -/
structure Request where
  /-- Field `r.Method`. -/
  Method : Bytes
  /-- Field `r.URL.Path`. -/
  Path : Bytes
  /-- Value of `r.Header.Get("Content-Type")`, empty when the header is missing. -/
  ContentType : Bytes
  /-- The bytes `io.Copy` reads from `r.Body`. -/
  Body : Bytes
  /-- The error of reading `r.Body`, if any. -/
  readErr : Option Bytes
  /-- The error of `r.Body.Close()`, if any. -/
  closeErr : Option Bytes
  deriving DecidableEq, Repr

/-- What the handler writes to the `http.ResponseWriter`. -/
structure Response where
  Status : Nat
  Header : List (Bytes × Bytes)
  Body : Bytes
  deriving DecidableEq, Repr

/-- The `http.Response` of the upstream server. -/
structure Upstream where
  /-- Field `res.StatusCode`. -/
  StatusCode : Nat
  /-- Field `res.Status`. -/
  Status : Bytes
  /-- Result of `ioutil.ReadAll(res.Body)`. -/
  Body : Except Bytes Bytes
  /-- The error of `res.Body.Close()`, if any. -/
  closeErr : Option Bytes

/-- The libraries and the network the proxy calls. -/
structure ProxyEnv where
  /-- Result of `mime.ParseMediaType(v)`: media type and parameters, or the error. -/
  ParseMediaType : Bytes → Except Bytes (Bytes × List (Bytes × Bytes))
  /-- Result of `http.StatusText(code)`. -/
  StatusText : Nat → Bytes
  /-- Result of `http.Get(url)`. -/
  Get : Bytes → Except Bytes Upstream
  /-- Result of decoding the request body into the struct of `secret`: the
  fields `Path` and `Username`, or the error. -/
  jsonDecode : Bytes → Except Bytes (Bytes × Bytes)
  /-- The bytes `json.NewEncoder(w).Encode` writes for the struct whose field
  `response` holds the given string. -/
  jsonEncode : Bytes → Bytes

/-- Go `http.Error(w, msg, code)`. -/
def httpError (msg : Bytes) (code : Nat) : Response :=
  { Status := code,
    Header := [(str "Content-Type", str "text/plain; charset=utf-8"),
               (str "X-Content-Type-Options", str "nosniff")],
    Body := msg ++ str "\n" }

/-- Go `http.NotFound(w, r)`. -/
def httpNotFound : Response := httpError (str "404 page not found") 404

/-- The `switch` of `filterBad` (main.go lines 115-123): whether the path is one
of the four accepted forms. -/
def pathOK (path : Bytes) : Bool :=
  HasPrefix path (str "/secret/") || HasPrefix path (str "/secrets/")
    || path == str "/secret" || path == str "/secrets"

/-- Method `filterBad` (main.go lines 114-138): `some resp` when it returns true
after writing `resp`, `none` when it returns false and writes nothing. -/
def filterBad (env : ProxyEnv) (r : Request) : Option Response :=
  if !pathOK r.Path then some httpNotFound
  else if r.Method ≠ str "POST" then some (httpError (env.StatusText 405) 405)
  else
    match env.ParseMediaType r.ContentType with
    | .error err => some (httpError err 400)
    | .ok (mediaType, _) =>
      if mediaType ≠ str "application/json" then some (httpError (str "bad content type") 400)
      else none

/-- Method `get` (main.go lines 81-112): the URLs fetched and the response. -/
def get (env : ProxyEnv) (target secret : Bytes) : List Bytes × Response :=
  let url := target ++ secret
  match env.Get url with
  | .error err => ([url], httpError err 400)
  | .ok res =>
    if res.StatusCode ≥ 400 then ([url], httpError (env.StatusText res.StatusCode) res.StatusCode)
    else if res.StatusCode ≠ 200 then ([url], httpError res.Status 502)
    else
      match res.Body with
      | .error err => ([url], httpError err 500)
      | .ok body =>
        match res.closeErr with
        | some err => ([url], httpError err 500)
        | none =>
          ([url], { Status := 200,
                    Header := [(str "Content-Type", str "application/json")],
                    Body := env.jsonEncode body })

/-- Method `secret` (main.go lines 67-79). -/
def secret (env : ProxyEnv) (target body : Bytes) : List Bytes × Response :=
  match env.jsonDecode body with
  | .error err => ([], httpError err 400)
  | .ok (path, username) => get env target (path ++ str "/" ++ username ++ str ".asc")

/-- Method `ServeHTTP` (main.go lines 45-65): the URLs fetched upstream and the
response written. -/
def ServeHTTP (env : ProxyEnv) (target : Bytes) (r : Request) : List Bytes × Response :=
  match filterBad env r with
  | some resp => ([], resp)
  | none =>
    match r.readErr with
    | some err => ([], httpError err 500)
    | none =>
      match r.closeErr with
      | some err => ([], httpError err 500)
      | none =>
        if HasPrefix r.Path (str "/secrets") then get env target (str "index.asc")
        else secret env target r.Body

/-! ## Names of directory entries -/

/-- A name a directory entry can carry: not empty, without a separator, and
neither `.` nor `..`. -/
def isEntryName (d : Bytes) : Prop := d ≠ [] ∧ slash ∉ d ∧ d ≠ [dot] ∧ d ≠ [dot, dot]

instance (d : Bytes) : Decidable (isEntryName d) := by
  unfold isEntryName
  exact inferInstance

/-! ## Reading the log -/

/-- The name and the data of a logged `WriteFile` call. -/
def Effect.written : Effect → Option (Bytes × Bytes)
  | .writeFile name data _ => some (name, data)
  | _ => none

/-- The files written in a stretch of the log, oldest first. -/
def written (w : World) : List (Bytes × Bytes) := w.filterMap Effect.written

/-- What the armorer owes for one secret in a run that starts in the world `w`
and ends in the world `final`: the run writes the file `nd` under the name
derived for the secret, with permission 0600, and its data is the armor, of type
PGP MESSAGE and without headers, of the bytes `x` that reading the secret gave
in the world `w0` right before the write; `decode` gives `x` back. -/
def armoredFrom (env : Env) (store target : Bytes) (decode : Bytes → Option Bytes)
    (w final : World) (secret : Bytes) (nd : Bytes × Bytes) : Prop :=
  nd.1 = armorName store target secret ∧
  ∃ (w0 : World) (x : Bytes), w <+: w0 ∧ (w0 ++ [.writeFile nd.1 nd.2 0o600]) <+: final ∧
    env.readAll w0 secret = .ok x ∧
    env.armorEncode (str "PGP MESSAGE") [] x = .ok nd.2 ∧ decode nd.2 = some x

/-! ## The addresses of the proxy -/

/-- The four address forms of the proxy: `/secret`, `/secrets`, and either one
followed by `/` and anything. -/
def acceptedPath (p : Bytes) : Prop :=
  p = str "/secret" ∨ p = str "/secrets" ∨
    (∃ t, p = str "/secret/" ++ t) ∨ (∃ t, p = str "/secrets/" ++ t)

/-- The addresses of the index: `/secrets` and `/secrets/` followed by anything. -/
def indexPath (p : Bytes) : Prop := p = str "/secrets" ∨ ∃ t, p = str "/secrets/" ++ t

/-- The addresses of a single secret: `/secret` and `/secret/` followed by anything. -/
def secretPath (p : Bytes) : Prop := p = str "/secret" ∨ ∃ t, p = str "/secret/" ++ t

/-! ## Sample inputs

A small keyring, a few store layouts and an environment in which every call to
the operating system succeeds.  The library functions of the sample environment
are stand-ins that are simple enough to evaluate: they are used to run the
definitions above on concrete inputs, never to prove a general statement. -/

/-- A recipient whose long id is `00001111ABCD1234` and whose short id is
`ABCD1234`. -/
def keyOne : Entity :=
  ⟨[0xA1, 0, 0, 0, 0, 0, 0, 0, 0, 0, 0, 0, 0x00, 0x00, 0x11, 0x11, 0xAB, 0xCD, 0x12, 0x34], 1, rfl⟩

/-- A recipient whose long id is `00002222ABCD1234`; it shares the short id of
`keyOne`. -/
def keyTwo : Entity :=
  ⟨[0xA2, 0, 0, 0, 0, 0, 0, 0, 0, 0, 0, 0, 0x00, 0x00, 0x22, 0x22, 0xAB, 0xCD, 0x12, 0x34], 2, rfl⟩

/-- A recipient whose long id is `0000000000C0FFEE` and whose short id is
`00C0FFEE`. -/
def keyThree : Entity :=
  ⟨[0xA3, 0, 0, 0, 0, 0, 0, 0, 0, 0, 0, 0, 0x00, 0x00, 0x00, 0x00, 0x00, 0xC0, 0xFF, 0xEE], 3, rfl⟩

/-- A keyring of three recipients. -/
def sampleKeyring : List Entity := [keyOne, keyTwo, keyThree]

/-- A directory with the given entries, in the given order. -/
def mkDir (entries : List (String × Node)) : Node :=
  .dir (entries.foldr (fun p acc => .cons (str p.1) p.2 acc) .nil)

/-- The store of the scenario in the specification: the identifier list and one
secret `example.com/alice.gpg`. -/
def sampleStore : Node :=
  mkDir [(".gpg-id", .file), ("example.com", mkDir [("alice.gpg", .file)])]

/-- A store with one file directly in its root. -/
def storeWithRootFile : Node := mkDir [("top.gpg", .file)]

/-- A store in which the directory `b` cannot be read; `a` comes before it in
the walk and `c` after it. -/
def storeWithUnreadableDir : Node :=
  mkDir [("a", mkDir [("x.gpg", .file)]), ("b", .unreadable (str "permission denied")),
         ("c", mkDir [("y.gpg", .file)])]

/-- A store whose directory `example.com` holds a file named `.gpg`. -/
def storeWithBareSuffix : Node := mkDir [("example.com", mkDir [(".gpg", .file)])]

/-- A stand-in for NFKD that knows one letter: `é` (bytes C3 A9) becomes `e`
followed by the combining acute accent (bytes CC 81); all else is unchanged. -/
def sampleNFKD : Bytes → Bytes
  | 0xC3 :: 0xA9 :: rest => 0x65 :: 0xCC :: 0x81 :: sampleNFKD rest
  | b :: rest => b :: sampleNFKD rest
  | [] => []

/-- A stand-in for the JSON encoder: the four fields of every row, separated by
commas, one row per line. -/
def sampleJson : List item → Bytes
  | [] => []
  | it :: rest =>
    it.Domain ++ str "," ++ it.Path ++ str "," ++ it.Username ++ str ","
      ++ it.UsernameNormalized ++ str "\n" ++ sampleJson rest

/-- A stand-in for the armor encoder: a marker byte in front of the data. -/
def sampleArmor (data : Bytes) : Bytes := 45 :: data

/-- The decoder that goes with `sampleArmor`. -/
def sampleDearmor : Bytes → Option Bytes
  | [] => none
  | _ :: data => some data

/-- An environment in which every call succeeds: the scanner yields `tokens`,
the walk sees `tree`, every file holds the bytes DE AD and the keyring file
holds `sampleKeyring`. -/
def sampleEnv (tokens : List Bytes) (tree : Node) : Env where
  Open := fun _ _ => none
  Close := fun _ _ => none
  scanLines := fun _ _ => (tokens, none)
  readAll := fun _ _ => .ok [0xDE, 0xAD]
  tree := fun _ _ => tree
  MkdirAll := fun _ _ _ => none
  WriteFile := fun _ _ _ _ => none
  ReadKeyRing := fun _ _ => (sampleKeyring, none)
  NFKD := fun s => .ok (sampleNFKD s)
  jsonEncode := fun list => .ok (sampleJson list)
  armorEncode := fun _ _ data => .ok (sampleArmor data)
  Encrypt := fun _ data => .ok data.reverse

/-- A stand-in for `mime.ParseMediaType`: an empty value is an error, otherwise
the media type is what stands before the first `;`. -/
def sampleParseMediaType (v : Bytes) : Except Bytes (Bytes × List (Bytes × Bytes)) :=
  if v = [] then .error (str "mime: no media type")
  else .ok (v.takeWhile (fun c => c ≠ 59), [])

/-- An upstream server that answers 200 with the body `B` on every URL. -/
def sampleUpstream (_url : Bytes) : Except Bytes Upstream :=
  .ok { StatusCode := 200, Status := str "200 OK", Body := .ok (str "B"), closeErr := none }

/-- An environment of the proxy with a stand-in JSON codec that knows the
request body of the scenario in the specification. -/
def sampleProxyEnv : ProxyEnv where
  ParseMediaType := sampleParseMediaType
  StatusText := fun code => if code = 405 then str "Method Not Allowed" else str "Error"
  Get := sampleUpstream
  jsonDecode := fun body =>
    if body = str "\x7b\"path\":\"example.com\",\"username\":\"alice\"\x7d" then
      .ok (str "example.com", str "alice")
    else .error (str "invalid character")
  jsonEncode := fun b => str "\x7b\"response\":\"" ++ b ++ str "\"\x7d\n"

/-- The request of the scenario: POST `/secret` with the JSON body. -/
def sampleSecretRequest : Request :=
  { Method := str "POST", Path := str "/secret", ContentType := str "application/json",
    Body := str "\x7b\"path\":\"example.com\",\"username\":\"alice\"\x7d",
    readErr := none, closeErr := none }

/-- A request for the index whose body cannot be read to its end. -/
def brokenBodyRequest : Request :=
  { Method := str "POST", Path := str "/secrets", ContentType := str "application/json",
    Body := [], readErr := some (str "unexpected EOF"), closeErr := none }

/-- An environment of the proxy whose upstream answers 200 with the body `B`,
but closing the body of the answer fails. -/
def closeFailsProxyEnv : ProxyEnv :=
  { sampleProxyEnv with
    Get := fun _ => .ok { StatusCode := 200, Status := str "200 OK", Body := .ok (str "B"),
                          closeErr := some (str "connection reset") } }

/-! ## Recipient resolution -/

theorem idMatches_iff (id : Bytes) (e : Entity) :
    idMatches id e = true ↔ (id = e.KeyIdString ∨ id = e.KeyIdShortString) := by
  simp [idMatches]

theorem matchKey_eq_some {id : Bytes} {el : List Entity} {e : Entity}
    (h : matchKey id el = some e) :
    ∃ l r, el = l ++ e :: r ∧ idMatches id e = true ∧ ∀ x ∈ l, idMatches id x = false := by
  induction el with
  | nil => simp [matchKey] at h
  | cons a rest ih =>
    unfold matchKey at h
    by_cases ha : idMatches id a = true
    · rw [if_pos ha] at h
      cases h
      exact ⟨[], rest, rfl, ha, by simp⟩
    · rw [if_neg ha] at h
      obtain ⟨l, r, hel, he, hl⟩ := ih h
      refine ⟨a :: l, r, by simp [hel], he, ?_⟩
      intro x hx
      rcases List.mem_cons.mp hx with rfl | hx
      · simpa using ha
      · exact hl x hx

theorem matchKey_eq_none {id : Bytes} {el : List Entity} :
    matchKey id el = none ↔ ∀ x ∈ el, idMatches id x = false := by
  induction el with
  | nil => simp [matchKey]
  | cons a rest ih =>
    unfold matchKey
    by_cases ha : idMatches id a = true
    · simp [ha]
    · simp [ha, ih]

theorem matchKey_isSome {id : Bytes} {el : List Entity}
    (h : ∃ e ∈ el, idMatches id e = true) : ∃ e, matchKey id el = some e := by
  cases hm : matchKey id el with
  | some e => exact ⟨e, rfl⟩
  | none =>
    obtain ⟨e, he, hid⟩ := h
    have := matchKey_eq_none.mp hm e he
    simp [this] at hid

theorem matchKeysLoop_all (el : List Entity) (ids : List Bytes) (rv : List Entity)
    (h : ∀ id ∈ ids, ∃ e ∈ el, idMatches id e = true) :
    ∃ res, matchKeysLoop el ids rv = (rv ++ res, none) ∧
      List.Forall₂ (fun id e => matchKey id el = some e) ids res := by
  induction ids generalizing rv with
  | nil => exact ⟨[], by simp [matchKeysLoop], List.Forall₂.nil⟩
  | cons id rest ih =>
    obtain ⟨e, he⟩ := matchKey_isSome (h id (List.mem_cons_self _ _))
    obtain ⟨res, hres, hall⟩ := ih (rv ++ [e]) (fun x hx => h x (List.mem_cons_of_mem _ hx))
    refine ⟨e :: res, ?_, List.Forall₂.cons he hall⟩
    simp [matchKeysLoop, he, hres]

/-- C1: when every identifier equals the long or short key id of some recipient
of the keyring, `matchKeys` returns no error and a list as long as the
identifier list whose i-th element is the first recipient, in keyring order,
whose long or short id equals the i-th identifier. -/
theorem matchKeys_resolves_in_order (el : List Entity) (ids : List Bytes)
    (h : ∀ id ∈ ids, ∃ e ∈ el, id = e.KeyIdString ∨ id = e.KeyIdShortString) :
    (matchKeys el ids).2 = none ∧
    (matchKeys el ids).1.length = ids.length ∧
    ∀ (i : Nat) (hi : i < ids.length), ∃ (l r : List Entity) (e : Entity),
      (matchKeys el ids).1[i]? = some e ∧ el = l ++ e :: r ∧
      (ids[i] = e.KeyIdString ∨ ids[i] = e.KeyIdShortString) ∧
      ∀ x ∈ l, ¬ (ids[i] = x.KeyIdString ∨ ids[i] = x.KeyIdShortString) := by
  have h1 : ∀ id ∈ ids, ∃ e ∈ el, idMatches id e = true := by
    intro id hid
    obtain ⟨e, he, hm⟩ := h id hid
    exact ⟨e, he, (idMatches_iff id e).mpr hm⟩
  obtain ⟨res, hres, hall⟩ := matchKeysLoop_all el ids [] h1
  have hm : matchKeys el ids = (res, none) := by simpa [matchKeys] using hres
  have hlen : ids.length = res.length := hall.length_eq
  refine ⟨by rw [hm], by rw [hm]; exact hlen.symm, ?_⟩
  intro i hi
  have hi2 : i < res.length := hlen ▸ hi
  have hk : matchKey ids[i] el = some res[i] := by
    have := List.forall₂_iff_get.mp hall
    exact this.2 i hi hi2
  obtain ⟨l, r, hel, he, hl⟩ := matchKey_eq_some hk
  refine ⟨l, r, res[i], ?_, hel, (idMatches_iff _ _).mp he, ?_⟩
  · rw [hm]; simp [hi2]
  · intro x hx hc
    have := hl x hx
    rw [(idMatches_iff _ _).mpr hc] at this
    exact Bool.noConfusion this

/-- C1 on a keyring of three recipients: short and long identifiers, one of them
repeated, resolve in declaration order; the short id shared by two keys goes to
the first of them. -/
theorem matchKeys_resolves_in_order_witness :
    (matchKeys sampleKeyring
      [str "00C0FFEE", str "ABCD1234", str "00002222ABCD1234", str "00C0FFEE"]).2 = none ∧
    (matchKeys sampleKeyring
      [str "00C0FFEE", str "ABCD1234", str "00002222ABCD1234", str "00C0FFEE"]).1
      = [keyThree, keyOne, keyTwo, keyThree] :=
  ⟨(matchKeys_resolves_in_order sampleKeyring
      [str "00C0FFEE", str "ABCD1234", str "00002222ABCD1234", str "00C0FFEE"] (by decide)).1,
   by decide⟩

/-! ## An unmatched identifier stops the pipeline -/

theorem matchKeysLoop_unmatched (el : List Entity) (ids : List Bytes) (rv : List Entity)
    (h : ∃ id ∈ ids, matchKey id el = none) :
    ∃ pre bad post res, ids = pre ++ bad :: post ∧
      (∀ id ∈ pre, ∃ e, matchKey id el = some e) ∧ matchKey bad el = none ∧
      res.length = pre.length ∧
      matchKeysLoop el ids rv = (rv ++ res, some (str "key with ID " ++ bad ++ str " not found")) := by
  induction ids generalizing rv with
  | nil => simp at h
  | cons id rest ih =>
    cases hm : matchKey id el with
    | none =>
      exact ⟨[], id, rest, [], rfl, by simp, hm, rfl, by simp [matchKeysLoop, hm]⟩
    | some e =>
      have hrest : ∃ x ∈ rest, matchKey x el = none := by
        obtain ⟨x, hx, hxn⟩ := h
        rcases List.mem_cons.mp hx with rfl | hx
        · rw [hm] at hxn; cases hxn
        · exact ⟨x, hx, hxn⟩
      obtain ⟨pre, bad, post, res, hids, hpre, hbad, hlen, hloop⟩ := ih (rv ++ [e]) hrest
      refine ⟨id :: pre, bad, post, e :: res, by simp [hids], ?_, hbad, by simp [hlen], ?_⟩
      · intro x hx
        rcases List.mem_cons.mp hx with rfl | hx
        · exact ⟨e, hm⟩
        · exact hpre x hx
      · simp [matchKeysLoop, hm, hloop]

theorem readIDs_world (env : Env) (store : Bytes) (w : World) :
    (readIDs env store w).1 = w ++ [.osOpen (Join [store, str ".gpg-id"])] := by
  unfold readIDs
  simp only []
  split
  · rfl
  · split <;> rfl

theorem readKeyring_world (env : Env) (keyring : Bytes) (w : World) :
    (readKeyring env keyring w).1 = w ++ [.osOpen keyring] := by
  unfold readKeyring
  simp only []
  split
  · rfl
  · split <;> rfl

/-- C2: when the identifier list (read without error) holds an identifier that
equals no long or short id of the keyring (read without error), `matchKeys`
fails with the error that names the first such identifier in declaration order,
and `main` ends with that error after the two files were opened: the list
resolved so far goes nowhere, no walk is started (every run of `makeTarget`
starts one), no directory is made and no file is written. -/
theorem unmatched_identifier_stops_pipeline (env : Env) (keyring store target : Bytes)
    (w : World) (ids : List Bytes) (el : List Entity)
    (hids : (readIDs env store w).2 = (ids, none))
    (hel : (readKeyring env keyring (readIDs env store w).1).2 = (el, none))
    (h : ∃ id ∈ ids, ∀ e ∈ el, ¬ (id = e.KeyIdString ∨ id = e.KeyIdShortString)) :
    ∃ pre bad post, ids = pre ++ bad :: post ∧
      (∀ id ∈ pre, ∃ e ∈ el, id = e.KeyIdString ∨ id = e.KeyIdShortString) ∧
      (∀ e ∈ el, ¬ (bad = e.KeyIdString ∨ bad = e.KeyIdShortString)) ∧
      (matchKeys el ids).2 = some (str "key with ID " ++ bad ++ str " not found") ∧
      main env keyring store target w =
        (w ++ [.osOpen (Join [store, str ".gpg-id"]), .osOpen keyring],
         some (str "key with ID " ++ bad ++ str " not found")) := by
  have h1 : ∃ id ∈ ids, matchKey id el = none := by
    obtain ⟨id, hid, hno⟩ := h
    refine ⟨id, hid, matchKey_eq_none.mpr ?_⟩
    intro x hx
    have := hno x hx
    rw [← idMatches_iff] at this
    simpa using this
  obtain ⟨pre, bad, post, res, hsplit, hpre, hbad, _, hloop⟩ := matchKeysLoop_unmatched el ids [] h1
  have hmk : matchKeys el ids = (res, some (str "key with ID " ++ bad ++ str " not found")) := by
    simpa [matchKeys] using hloop
  refine ⟨pre, bad, post, hsplit, ?_, ?_, by rw [hmk], ?_⟩
  · intro id hid
    obtain ⟨e, he⟩ := hpre id hid
    obtain ⟨l, r, hel2, hm, _⟩ := matchKey_eq_some he
    exact ⟨e, by simp [hel2], (idMatches_iff _ _).mp hm⟩
  · intro e he hc
    have := matchKey_eq_none.mp hbad e he
    rw [(idMatches_iff _ _).mpr hc] at this
    exact Bool.noConfusion this
  · have hw1 := readIDs_world env store w
    have hw2 := readKeyring_world env keyring (readIDs env store w).1
    have e1 : readIDs env store w = (w ++ [.osOpen (Join [store, str ".gpg-id"])], ids, none) := by
      rw [← hw1, ← hids]
    have e2 : readKeyring env keyring (w ++ [.osOpen (Join [store, str ".gpg-id"])]) =
        (w ++ [.osOpen (Join [store, str ".gpg-id"]), .osOpen keyring], el, none) := by
      rw [hw1] at hw2 hel
      rw [← hel]
      ext1
      · simpa using hw2
      · rfl
    simp only [main, e1, e2, hmk]

/-- C2 on an identifier list whose second entry `C0FFEE` is in no key of the
keyring: the short id of the third key is `00C0FFEE`, with its leading zeros. -/
theorem unmatched_identifier_stops_pipeline_witness :
    ∃ pre bad post, [str "ABCD1234", str "C0FFEE", str "00C0FFEE", str "BAD"] = pre ++ bad :: post ∧
      (∀ id ∈ pre, ∃ e ∈ sampleKeyring, id = e.KeyIdString ∨ id = e.KeyIdShortString) ∧
      (∀ e ∈ sampleKeyring, ¬ (bad = e.KeyIdString ∨ bad = e.KeyIdShortString)) ∧
      (matchKeys sampleKeyring [str "ABCD1234", str "C0FFEE", str "00C0FFEE", str "BAD"]).2
        = some (str "key with ID " ++ bad ++ str " not found") ∧
      main (sampleEnv [str "ABCD1234", [], str "C0FFEE", str "00C0FFEE", str "BAD"] sampleStore)
          (str "pubring.gpg") (str "secrets") (str "target") [] =
        ([] ++ [.osOpen (Join [str "secrets", str ".gpg-id"]), .osOpen (str "pubring.gpg")],
         some (str "key with ID " ++ bad ++ str " not found")) :=
  unmatched_identifier_stops_pipeline
    (sampleEnv [str "ABCD1234", [], str "C0FFEE", str "00C0FFEE", str "BAD"] sampleStore)
    (str "pubring.gpg") (str "secrets") (str "target") []
    [str "ABCD1234", str "C0FFEE", str "00C0FFEE", str "BAD"] sampleKeyring
    (by decide) (by decide) ⟨str "C0FFEE", by decide, by decide⟩

/-! ## The enumeration and the store root as it is written -/

/-- C3 (the code at the failing input): with the store root written `secrets/`,
the file `top.gpg` that lies directly in the root is enumerated, because the walk
reports it as `secrets/top.gpg`, whose directory `secrets` is compared with the
root as written. -/
theorem enumerate_root_file_with_trailing_slash :
    enumerate (str "secrets/") storeWithRootFile = ([str "secrets/top.gpg"], none) ∧
    Dir (str "secrets/top.gpg") = str "secrets" ∧
    enumerate (str "secrets") storeWithRootFile = ([], none) := by
  decide

/-! ## A walk error and the rest of makeTarget -/

/-- C4 (the code at the failing input): the walk stops with an error at the
unreadable directory `b`, after `a/x.gpg` and before `c/y.gpg`; `makeTarget`
goes on with the one location found, armors it, writes the index and returns no
error. -/
theorem makeTarget_goes_on_after_walk_error :
    enumerate (str "secrets") storeWithUnreadableDir
      = ([str "secrets/a/x.gpg"], some (.other (str "permission denied"))) ∧
    makeTarget (sampleEnv [] storeWithUnreadableDir) (str "secrets") (str "target") sampleKeyring []
      = ([.walkTree (str "secrets"),
          .mkdirAll (str "target/a") 0o700,
          .osOpen (str "secrets/a/x.gpg"),
          .writeFile (str "target/a/x.asc") (sampleArmor [0xDE, 0xAD]) 0o600,
          .writeFile (str "target/index.asc") (sampleArmor (str "a,a,x,x\n").reverse) 0o600],
         none) := by
  decide

/-! ## The index row of a location -/

theorem TrimPrefix_append (s t : Bytes) : TrimPrefix (s ++ t) s = t := by
  simp [TrimPrefix, HasPrefix]

theorem TrimSuffix_append (t s : Bytes) : TrimSuffix (t ++ s) s = t := by
  simp [TrimSuffix, HasSuffix]

theorem splitSlash_append (u rest : Bytes) (hu : slash ∉ u) :
    splitSlash (u ++ slash :: rest) = u :: splitSlash rest := by
  induction u with
  | nil => simp [splitSlash]
  | cons c cs ih =>
    have hc : c ≠ slash := fun h => hu (by simp [h])
    have hcs : slash ∉ cs := fun h => hu (List.mem_cons_of_mem _ h)
    rw [List.cons_append, splitSlash, if_neg hc, ih hcs]

theorem splitSlash_noslash (u : Bytes) (hu : slash ∉ u) : splitSlash u = [u] := by
  induction u with
  | nil => simp [splitSlash]
  | cons c cs ih =>
    have hc : c ≠ slash := fun h => hu (by simp [h])
    have hcs : slash ∉ cs := fun h => hu (List.mem_cons_of_mem _ h)
    rw [splitSlash, if_neg hc, ih hcs]

theorem splitSlash_joinSlash (es : List Bytes) (hne : es ≠ []) (h : ∀ e ∈ es, slash ∉ e) :
    splitSlash (joinSlash es) = es := by
  induction es with
  | nil => exact absurd rfl hne
  | cons e rest ih =>
    cases rest with
    | nil => simpa [joinSlash] using splitSlash_noslash e (h e (by simp))
    | cons e2 rest2 =>
      simp only [joinSlash]
      rw [splitSlash_append _ _ (h e (by simp)), ih (by simp) (fun x hx => h x (List.mem_cons_of_mem _ hx))]

theorem joinSlash_append_singleton (es : List Bytes) (hne : es ≠ []) (u : Bytes) :
    joinSlash (es ++ [u]) = joinSlash es ++ slash :: u := by
  induction es with
  | nil => exact absurd rfl hne
  | cons e rest ih =>
    cases rest with
    | nil => simp [joinSlash]
    | cons e2 rest2 =>
      have := ih (by simp)
      rw [List.cons_append] at this
      rw [List.cons_append, List.cons_append, joinSlash, this, joinSlash]
      simp

theorem cleanLoop_names (rooted : Bool) (es rest out : List Bytes) (h : ∀ e ∈ es, isEntryName e) :
    cleanLoop rooted (es ++ rest) out = cleanLoop rooted rest (es.reverse ++ out) := by
  induction es generalizing out with
  | nil => rfl
  | cons e t ih =>
    obtain ⟨h1, _, h3, h4⟩ := h e (by simp)
    have hor : ¬ (e = [] ∨ e = [dot]) := by
      rintro (h | h)
      · exact h1 h
      · exact h3 h
    rw [List.cons_append]
    simp only [cleanLoop, if_neg hor, if_neg h4]
    rw [ih _ (fun x hx => h x (List.mem_cons_of_mem _ hx))]
    simp

/-- The directory part `/d1/.../dn/` of a rooted path cleans to `/d1/.../dn`. -/
theorem Clean_rooted_names (ds : List Bytes) (hne : ds ≠ []) (h : ∀ d ∈ ds, isEntryName d) :
    Clean (slash :: joinSlash ds ++ [slash]) = slash :: joinSlash ds := by
  have hjoin : slash :: joinSlash ds ++ [slash] = joinSlash ([] :: (ds ++ [[]])) := by
    cases ds with
    | nil => exact absurd rfl hne
    | cons d t =>
      have := joinSlash_append_singleton (d :: t) (by simp) []
      simp only [List.cons_append] at this
      simp [joinSlash, this]
  have hsplit : splitSlash (slash :: joinSlash ds ++ [slash]) = [] :: (ds ++ [[]]) := by
    rw [hjoin]
    apply splitSlash_joinSlash _ (by simp)
    intro e he
    simp only [List.mem_cons, List.mem_append, List.not_mem_nil, or_false] at he
    rcases he with rfl | he | rfl
    · simp
    · exact (h e he).2.1
    · simp
  have hloop : cleanLoop true ([] :: (ds ++ [[]])) [] = ds.reverse := by
    have := cleanLoop_names true ds [[]] [] h
    rw [cleanLoop, if_pos (Or.inl rfl), this]
    simp [cleanLoop]
  rw [List.cons_append] at hsplit ⊢
  simp only [Clean, decide_True, if_true, hsplit, hloop, List.reverse_reverse]

theorem splitDir_append (a u : Bytes) (hu : slash ∉ u) :
    splitDir (a ++ slash :: u) = a ++ [slash] := by
  induction a with
  | nil => simp [splitDir, hu]
  | cons c cs ih =>
    rw [List.cons_append]
    simp only [splitDir]
    rw [if_pos (by simp), ih, List.cons_append]

theorem takeWhile_append_stop {α : Type} (p : α → Bool) (l r : List α) (x : α)
    (hl : ∀ a ∈ l, p a = true) (hx : p x = false) : (l ++ x :: r).takeWhile p = l := by
  induction l with
  | nil => simp [List.takeWhile, hx]
  | cons a t ih =>
    rw [List.cons_append]
    simp only [List.takeWhile, hl a (by simp)]
    rw [ih (fun b hb => hl b (List.mem_cons_of_mem _ hb))]

theorem stripTrailingSlashes_name (a u : Bytes) (hu : slash ∉ u) (hne : u ≠ []) :
    stripTrailingSlashes (a ++ u) = a ++ u := by
  obtain ⟨v, c, rfl⟩ : ∃ v c, u = v ++ [c] := by
    rcases List.eq_nil_or_concat u with h | ⟨v, c, h⟩
    · exact absurd h hne
    · exact ⟨v, c, by simpa using h⟩
  have hc : c ≠ slash := fun h => hu (by simp [h])
  simp [stripTrailingSlashes, List.dropWhile, hc]

theorem afterLastSlash_append (a u : Bytes) (hu : slash ∉ u) :
    afterLastSlash (a ++ slash :: u) = u := by
  unfold afterLastSlash
  have : (a ++ slash :: u).reverse = u.reverse ++ slash :: a.reverse := by simp
  rw [this, takeWhile_append_stop _ _ _ _ _ (by simp)]
  · simp
  · intro b hb
    have : b ≠ slash := fun h => hu (by rw [← h]; exact List.mem_reverse.mp hb)
    simpa using this

theorem afterLastSlash_noslash (u : Bytes) (hu : slash ∉ u) : afterLastSlash u = u := by
  unfold afterLastSlash
  rw [List.takeWhile_eq_self_iff.mpr]
  · simp
  · intro b hb
    have : b ≠ slash := fun h => hu (by rw [← h]; exact List.mem_reverse.mp hb)
    simpa using this

/-- The base name of `a/u` is `u` for a non-empty `u` without separator. -/
theorem Base_append (a u : Bytes) (hu : slash ∉ u) (hne : u ≠ []) :
    Base (a ++ slash :: u) = u := by
  have hstrip := stripTrailingSlashes_name (a ++ [slash]) u hu hne
  simp only [List.append_assoc, List.singleton_append] at hstrip
  simp [Base, hstrip, afterLastSlash_append a u hu, hne]

theorem Base_noslash (u : Bytes) (hu : slash ∉ u) (hne : u ≠ []) : Base u = u := by
  have hstrip := stripTrailingSlashes_name [] u hu hne
  simp only [List.nil_append] at hstrip
  simp [Base, hstrip, afterLastSlash_noslash u hu, hne]

theorem Base_joinSlash (ds : List Bytes) (hne : ds ≠ []) (h : ∀ d ∈ ds, isEntryName d) :
    Base (joinSlash ds) = ds.getLast hne := by
  rcases List.eq_nil_or_concat ds with h0 | ⟨init, d, hd⟩
  · exact absurd h0 hne
  · have hd2 : ds = init ++ [d] := by simpa using hd
    subst hd2
    have hname := h d (by simp)
    rw [List.getLast_append_singleton]
    cases init with
    | nil => simpa [joinSlash] using Base_noslash d hname.2.1 hname.1
    | cons e t =>
      rw [joinSlash_append_singleton _ (by simp)]
      exact Base_append _ d hname.2.1 hname.1

theorem indexLoop_eq (env : Env) (store : Bytes) (secrets : List Bytes) (list : List item) :
    indexLoop env store secrets list = list ++ secrets.map (indexItem env store) := by
  induction secrets generalizing list with
  | nil => simp [indexLoop]
  | cons s rest ih => simp [indexLoop, ih]

theorem acceptRange_lo (b0 : Nat) : 0x80 ≤ (acceptRange b0).1 := by
  unfold acceptRange
  split_ifs <;> simp

theorem inRange_lo {b lo hi : Nat} (h : inRange b lo hi = true) : lo ≤ b := by
  simp [inRange] at h
  exact h.1

/-- A round of the `range` loop advances by at least one byte, stays inside the
string, and every byte it passes over after the first is at least `0x80`. -/
theorem runeLen_spec (c : Nat) (cs : Bytes) :
    ∃ k, runeLen (c :: cs) = k + 1 ∧ ∀ b ∈ cs.take k, 0x80 ≤ b := by
  simp only [runeLen]
  split_ifs with h1 h2 h3 h4
  · exact ⟨0, rfl, by simp⟩
  · cases cs with
    | nil => exact ⟨0, rfl, by simp⟩
    | cons b1 t =>
      simp only []
      split_ifs with h
      · exact ⟨1, rfl, by simpa using inRange_lo h⟩
      · exact ⟨0, rfl, by simp⟩
  · match cs with
    | [] => exact ⟨0, rfl, by simp⟩
    | [_] => exact ⟨0, rfl, by simp⟩
    | b1 :: b2 :: t =>
      simp only []
      split_ifs with h
      · refine ⟨2, rfl, ?_⟩
        simp only [Bool.and_eq_true] at h
        have := acceptRange_lo c
        have := inRange_lo h.1
        have := inRange_lo h.2
        intro b hb
        simp at hb
        rcases hb with rfl | rfl <;> omega
      · exact ⟨0, rfl, by simp⟩
  · match cs with
    | [] => exact ⟨0, rfl, by simp⟩
    | [_] => exact ⟨0, rfl, by simp⟩
    | [_, _] => exact ⟨0, rfl, by simp⟩
    | b1 :: b2 :: b3 :: t =>
      simp only []
      split_ifs with h
      · refine ⟨3, rfl, ?_⟩
        simp only [Bool.and_eq_true] at h
        have := acceptRange_lo c
        have := inRange_lo h.1.1
        have := inRange_lo h.1.2
        have := inRange_lo h.2
        intro b hb
        simp at hb
        rcases hb with rfl | rfl | rfl <;> omega
      · exact ⟨0, rfl, by simp⟩
  · exact ⟨0, rfl, by simp⟩

/-- With enough fuel the loop of `normalize` appends exactly the bytes below
`0x80`, in order. -/
theorem normalizeLoop_eq_filter (fuel : Nat) (rs b : Bytes) (h : rs.length ≤ fuel) :
    normalizeLoop fuel rs b = b ++ rs.filter (fun c => decide (c < 0x80)) := by
  induction fuel generalizing rs b with
  | zero =>
    have : rs = [] := List.length_eq_zero.mp (Nat.le_zero.mp h)
    subst this
    simp [normalizeLoop]
  | succ n ih =>
    cases rs with
    | nil => simp [normalizeLoop]
    | cons c cs =>
      obtain ⟨k, hk, hhigh⟩ := runeLen_spec c cs
      have hdrop : (c :: cs).drop (runeLen (c :: cs)) = cs.drop k := by rw [hk]; rfl
      have hlen : (cs.drop k).length ≤ n := by
        simp only [List.length_drop]
        simp only [List.length_cons] at h
        omega
      have hskip : (cs.take k).filter (fun c => decide (c < 0x80)) = [] := by
        rw [List.filter_eq_nil_iff]
        intro a ha
        have := hhigh a ha
        simp only [decide_eq_true_eq]
        omega
      have hcs : cs.filter (fun c => decide (c < 0x80))
          = (cs.drop k).filter (fun c => decide (c < 0x80)) := by
        conv_lhs => rw [← List.take_append_drop k cs, List.filter_append, hskip, List.nil_append]
      unfold normalizeLoop
      rw [hdrop, ih _ _ hlen, List.filter_cons, hcs]
      by_cases hc : c < 0x80 <;> simp [hc]

theorem normalize_eq (env : Env) (s : Bytes) :
    normalize env s =
      match env.NFKD s with
      | .error _ => []
      | .ok rs => rs.filter (fun c => decide (c < 0x80)) := by
  unfold normalize
  split
  · rfl
  · rw [normalizeLoop_eq_filter _ _ _ (Nat.le_refl _)]; rfl

theorem normalize_ascii (env : Env) (s : Bytes) : ∀ b ∈ normalize env s, b < 0x80 := by
  rw [normalize_eq]
  split
  · simp
  · intro b hb
    simpa using (List.mem_filter.mp hb).2

/-- C6: `normalize(x)` holds only bytes below `0x80`, and, NFKD leaving ASCII
strings as they are, `normalize(normalize(x)) = normalize(x)`. -/
theorem normalize_ascii_and_idempotent (env : Env)
    (hNFKD : ∀ s : Bytes, (∀ b ∈ s, b < 0x80) → env.NFKD s = .ok s) (x : Bytes) :
    (∀ b ∈ normalize env x, b < 0x80) ∧
    normalize env (normalize env x) = normalize env x := by
  refine ⟨normalize_ascii env x, ?_⟩
  have h := hNFKD _ (normalize_ascii env x)
  conv_lhs => rw [normalize_eq, h]
  simp only []
  rw [List.filter_eq_self]
  intro b hb
  simpa using normalize_ascii env x b hb

theorem sampleNFKD_ascii (s : Bytes) (h : ∀ b ∈ s, b < 0x80) : sampleNFKD s = s := by
  induction s with
  | nil => rfl
  | cons b rest ih =>
    have hb : b < 0x80 := h b (List.mem_cons_self _ _)
    have hrest := ih (fun x hx => h x (List.mem_cons_of_mem _ hx))
    unfold sampleNFKD
    split
    · rename_i heq
      simp only [List.cons.injEq] at heq
      omega
    · rename_i heq
      simp only [List.cons.injEq] at heq
      obtain ⟨rfl, rfl⟩ := heq
      rw [hrest]
    · rename_i heq
      cases heq

/-- C6 on the bytes of `réné€!` with the stand-in decomposition. -/
theorem normalize_ascii_and_idempotent_witness :
    (∀ b ∈ normalize (sampleEnv [] sampleStore) [0x72, 0xC3, 0xA9, 0x6E, 0xC3, 0xA9, 0xE2, 0x82, 0xAC, 0x21],
      b < 0x80) ∧
    normalize (sampleEnv [] sampleStore)
        (normalize (sampleEnv [] sampleStore) [0x72, 0xC3, 0xA9, 0x6E, 0xC3, 0xA9, 0xE2, 0x82, 0xAC, 0x21])
      = normalize (sampleEnv [] sampleStore) [0x72, 0xC3, 0xA9, 0x6E, 0xC3, 0xA9, 0xE2, 0x82, 0xAC, 0x21] :=
  normalize_ascii_and_idempotent (sampleEnv [] sampleStore)
    (fun s hs => congrArg Except.ok (sampleNFKD_ascii s hs))
    [0x72, 0xC3, 0xA9, 0x6E, 0xC3, 0xA9, 0xE2, 0x82, 0xAC, 0x21]

/-! ## The armorer -/

theorem written_append (a b : World) : written (a ++ b) = written a ++ written b := by
  simp [written, List.filterMap_append]

theorem armoredFrom_mono {env : Env} {store target : Bytes} {decode : Bytes → Option Bytes}
    {w w1 w2 final : World} {secret : Bytes} {nd : Bytes × Bytes}
    (h : armoredFrom env store target decode w1 w2 secret nd)
    (hw : w <+: w1) (hfinal : w2 <+: final) :
    armoredFrom env store target decode w final secret nd := by
  obtain ⟨hname, w0, x, h1, h2, h3, h4, h5⟩ := h
  exact ⟨hname, w0, x, hw.trans h1, h2.trans hfinal, h3, h4, h5⟩

/-- One round of the loop of `armorSecrets`: it only adds to the log, every file
it writes is the armor of what it read, and a round without error writes
exactly one file. -/
theorem armorSecret_spec (env : Env) (store target secret : Bytes) (w : World)
    (decode : Bytes → Option Bytes)
    (hdec : ∀ x c, env.armorEncode (str "PGP MESSAGE") [] x = .ok c → decode c = some x) :
    ∃ new, (armorSecret env store target secret w).1 = w ++ new ∧
      (∀ nd ∈ written new,
        armoredFrom env store target decode w (w ++ new) secret nd) ∧
      ((armorSecret env store target secret w).2 = none →
        ∃ nd, written new = [nd] ∧
          armoredFrom env store target decode w (w ++ new) secret nd) := by
  unfold armorSecret
  simp only []
  split
  · exact ⟨[.mkdirAll (Join [target, armorDir store secret]) 0o700], rfl,
      by simp [written, Effect.written], by simp⟩
  · split
    · exact ⟨[.mkdirAll (Join [target, armorDir store secret]) 0o700, .osOpen secret],
        by simp, by simp [written, Effect.written], by simp⟩
    · split
      · exact ⟨[.mkdirAll (Join [target, armorDir store secret]) 0o700, .osOpen secret],
          by simp, by simp [written, Effect.written], by simp⟩
      · rename_i input hread
        split
        · exact ⟨[.mkdirAll (Join [target, armorDir store secret]) 0o700, .osOpen secret],
            by simp, by simp [written, Effect.written], by simp⟩
        · rename_i output harmor
          have hgood : armoredFrom env store target decode w
              (w ++ [.mkdirAll (Join [target, armorDir store secret]) 0o700, .osOpen secret,
                .writeFile (armorName store target secret) output 0o600]) secret
              (armorName store target secret, output) :=
            ⟨rfl, w ++ [.mkdirAll (Join [target, armorDir store secret]) 0o700] ++ [.osOpen secret],
              input, ⟨_, (List.append_assoc _ _ _).symm⟩, ⟨[], by simp⟩, hread, harmor,
              hdec _ _ harmor⟩
          refine ⟨[.mkdirAll (Join [target, armorDir store secret]) 0o700, .osOpen secret,
            .writeFile (armorName store target secret) output 0o600], by simp, ?_, ?_⟩
          · intro nd hnd
            simp only [written, List.filterMap_cons, Effect.written, List.filterMap_nil,
              List.mem_singleton] at hnd
            rw [hnd]
            exact hgood
          · intro _
            exact ⟨_, by simp [written, Effect.written], hgood⟩

/-- C7: `armorSecrets` only adds to the log; every file it writes belongs to one
of the secrets and holds the armor (type PGP MESSAGE, no headers) of exactly the
bytes that reading that secret gave right before the write, so that a decoder
that inverts the armor gives these bytes back; and a run without error writes
one such file per secret, in the order of the secrets. -/
theorem armorSecrets_writes_armor_of_content (env : Env) (store target : Bytes)
    (secrets : List Bytes) (w : World) (decode : Bytes → Option Bytes)
    (hdec : ∀ x c, env.armorEncode (str "PGP MESSAGE") [] x = .ok c → decode c = some x) :
    ∃ new, (armorSecrets env store target secrets w).1 = w ++ new ∧
      (∀ nd ∈ written new, ∃ secret ∈ secrets,
        armoredFrom env store target decode w (w ++ new) secret nd) ∧
      ((armorSecrets env store target secrets w).2 = none →
        List.Forall₂ (armoredFrom env store target decode w (w ++ new)) secrets (written new)) := by
  induction secrets generalizing w with
  | nil => exact ⟨[], by simp [armorSecrets], by simp [written], fun _ => by simp [written]⟩
  | cons secret rest ih =>
    obtain ⟨new1, hw1, hall1, hok1⟩ := armorSecret_spec env store target secret w decode hdec
    unfold armorSecrets
    cases hstep : armorSecret env store target secret w with
    | mk w1 err =>
      rw [hstep] at hw1 hok1
      simp only at hw1 hok1
      cases err with
      | some e =>
        refine ⟨new1, hw1, ?_, by simp⟩
        intro nd hnd
        exact ⟨secret, by simp, hall1 nd hnd⟩
      | none =>
        obtain ⟨new2, hw2, hall2, hok2⟩ := ih w1
        obtain ⟨nd1, hnd1, hgood1⟩ := hok1 rfl
        have hfin : w ++ (new1 ++ new2) = w1 ++ new2 := by rw [hw1, List.append_assoc]
        have hpre1 : w ++ new1 <+: w ++ (new1 ++ new2) := ⟨new2, by simp⟩
        have hpre0 : w <+: w1 := ⟨new1, hw1.symm⟩
        refine ⟨new1 ++ new2, ?_, ?_, ?_⟩
        · simp only []
          rw [hw2, hw1, List.append_assoc]
        · intro nd hnd
          rw [written_append, List.mem_append] at hnd
          rcases hnd with h | h
          · exact ⟨secret, by simp, armoredFrom_mono (hall1 nd h) (List.prefix_refl _) hpre1⟩
          · obtain ⟨s, hs, hg⟩ := hall2 nd h
            exact ⟨s, List.mem_cons_of_mem _ hs,
              armoredFrom_mono hg hpre0 (by rw [hfin])⟩
        · intro hnone
          rw [written_append, hnd1]
          refine List.Forall₂.cons (armoredFrom_mono hgood1 (List.prefix_refl _) hpre1) ?_
          refine (hok2 hnone).imp ?_
          intro s nd hg
          exact armoredFrom_mono hg hpre0 (by rw [hfin])

/-- C7 on the scenario, with the stand-in armor and its decoder. -/
theorem armorSecrets_writes_armor_of_content_witness :
    ∃ new, (armorSecrets (sampleEnv [] sampleStore) (str "secrets") (str "target")
        [str "secrets/example.com/alice.gpg"] []).1 = [] ++ new ∧
      (∀ nd ∈ written new, ∃ secret ∈ [str "secrets/example.com/alice.gpg"],
        armoredFrom (sampleEnv [] sampleStore) (str "secrets") (str "target") sampleDearmor
          [] ([] ++ new) secret nd) ∧
      ((armorSecrets (sampleEnv [] sampleStore) (str "secrets") (str "target")
        [str "secrets/example.com/alice.gpg"] []).2 = none →
        List.Forall₂ (armoredFrom (sampleEnv [] sampleStore) (str "secrets") (str "target")
            sampleDearmor [] ([] ++ new))
          [str "secrets/example.com/alice.gpg"] (written new)) :=
  armorSecrets_writes_armor_of_content (sampleEnv [] sampleStore) (str "secrets") (str "target")
    [str "secrets/example.com/alice.gpg"] [] sampleDearmor
    (by intro x c h; cases h; rfl)

/-- The armorer on the scenario of the specification: one directory made, one
file read, one file written, whose content decodes to the bytes DE AD. -/
theorem armorSecrets_sample_run :
    armorSecrets (sampleEnv [] sampleStore) (str "secrets") (str "target")
        [str "secrets/example.com/alice.gpg"] []
      = ([.mkdirAll (str "target/example.com") 0o700,
          .osOpen (str "secrets/example.com/alice.gpg"),
          .writeFile (str "target/example.com/alice.asc") (sampleArmor [0xDE, 0xAD]) 0o600], none) ∧
    sampleDearmor (sampleArmor [0xDE, 0xAD]) = some [0xDE, 0xAD] := by
  decide

/-! ## The filter of the proxy -/

theorem HasPrefix_iff (s p : Bytes) : HasPrefix s p = true ↔ ∃ t, s = p ++ t := by
  simp only [HasPrefix, List.isPrefixOf_iff_prefix]
  constructor
  · rintro ⟨t, rfl⟩; exact ⟨t, rfl⟩
  · rintro ⟨t, rfl⟩; exact ⟨t, rfl⟩

theorem pathOK_iff (p : Bytes) : pathOK p = true ↔ acceptedPath p := by
  simp only [pathOK, acceptedPath, Bool.or_eq_true, HasPrefix_iff, beq_iff_eq]
  tauto

/-- C8: `filterBad` decides in this order: a path that is none of the four
address forms gives 404; otherwise a method other than POST gives 405;
otherwise a media type that does not parse (a missing header included) or that
is not `application/json` gives 400; otherwise the request is accepted and the
filter writes nothing.  So GET `/secrets` gives 405 and POST `/unknown` 404. -/
theorem filterBad_decides_in_order (env : ProxyEnv) (r : Request) :
    (¬ acceptedPath r.Path → (filterBad env r).map Response.Status = some 404) ∧
    (acceptedPath r.Path → r.Method ≠ str "POST" →
      (filterBad env r).map Response.Status = some 405) ∧
    (acceptedPath r.Path → r.Method = str "POST" →
      (∀ err, env.ParseMediaType r.ContentType = .error err →
        (filterBad env r).map Response.Status = some 400) ∧
      (∀ mediaType params, env.ParseMediaType r.ContentType = .ok (mediaType, params) →
        mediaType ≠ str "application/json" →
        (filterBad env r).map Response.Status = some 400) ∧
      (∀ params, env.ParseMediaType r.ContentType = .ok (str "application/json", params) →
        filterBad env r = none)) ∧
    (r.Path = str "/secrets" → r.Method = str "GET" →
      (filterBad env r).map Response.Status = some 405) ∧
    (r.Path = str "/unknown" → (filterBad env r).map Response.Status = some 404) := by
  refine ⟨?_, ?_, ?_, ?_, ?_⟩
  · intro h
    rw [← pathOK_iff] at h
    simp [filterBad, h, httpNotFound, httpError]
  · intro h hm
    rw [← pathOK_iff] at h
    simp [filterBad, h, hm, httpError]
  · intro h hm
    rw [← pathOK_iff] at h
    refine ⟨?_, ?_, ?_⟩
    · intro err he
      simp [filterBad, h, hm, he, httpError]
    · intro mediaType params he hne
      simp [filterBad, h, hm, he, hne, httpError]
    · intro params he
      simp [filterBad, h, hm, he]
  · intro hp hm
    have h : pathOK r.Path = true := by rw [hp]; decide
    have hne : r.Method ≠ str "POST" := by rw [hm]; decide
    simp [filterBad, h, hne, httpError]
  · intro hp
    have h : pathOK r.Path = false := by rw [hp]; decide
    simp [filterBad, h, httpNotFound, httpError]

/-- C8 on four requests: wrong method, unknown address, missing content type,
and the accepted request of the scenario. -/
theorem filterBad_decides_in_order_witness :
    (filterBad sampleProxyEnv
      { Method := str "GET", Path := str "/secrets", ContentType := [], Body := [],
        readErr := none, closeErr := none }).map Response.Status = some 405 ∧
    (filterBad sampleProxyEnv
      { Method := str "POST", Path := str "/unknown", ContentType := str "application/json",
        Body := [], readErr := none, closeErr := none }).map Response.Status = some 404 ∧
    (filterBad sampleProxyEnv
      { Method := str "POST", Path := str "/secret/x", ContentType := [], Body := [],
        readErr := none, closeErr := none }).map Response.Status = some 400 ∧
    filterBad sampleProxyEnv sampleSecretRequest = none :=
  ⟨(filterBad_decides_in_order sampleProxyEnv
      { Method := str "GET", Path := str "/secrets", ContentType := [], Body := [],
        readErr := none, closeErr := none }).2.2.2.1 rfl rfl,
   (filterBad_decides_in_order sampleProxyEnv
      { Method := str "POST", Path := str "/unknown", ContentType := str "application/json",
        Body := [], readErr := none, closeErr := none }).2.2.2.2 rfl,
   ((filterBad_decides_in_order sampleProxyEnv
      { Method := str "POST", Path := str "/secret/x", ContentType := [], Body := [],
        readErr := none, closeErr := none }).2.2.1
      (Or.inr (Or.inr (Or.inl ⟨str "x", by decide⟩))) rfl).1 (str "mime: no media type") rfl,
   ((filterBad_decides_in_order sampleProxyEnv sampleSecretRequest).2.2.1
      (Or.inl rfl) rfl).2.2 [] rfl⟩

/-! ## Routing and the answer of the proxy -/

theorem indexPath_hasPrefix {p : Bytes} (h : indexPath p) : HasPrefix p (str "/secrets") = true := by
  rw [HasPrefix_iff]
  rcases h with h | ⟨t, h⟩
  · exact ⟨[], by simp [h]⟩
  · exact ⟨slash :: t, by rw [h]; rfl⟩

theorem secretPath_hasPrefix {p : Bytes} (h : secretPath p) : HasPrefix p (str "/secrets") = false := by
  rcases h with h | ⟨t, h⟩
  · rw [h]; decide
  · rw [h]
    cases hp : HasPrefix (str "/secret/" ++ t) (str "/secrets") with
    | false => rfl
    | true =>
      obtain ⟨t2, ht2⟩ := (HasPrefix_iff _ _).mp hp
      simp [str] at ht2

theorem get_fetches (env : ProxyEnv) (target name : Bytes) :
    (get env target name).1 = [target ++ name] := by
  unfold get
  simp only []
  split
  · rfl
  · split_ifs
    · rfl
    · rfl
    · split
      · rfl
      · split <;> rfl

theorem ServeHTTP_forwarded (env : ProxyEnv) (target : Bytes) (r : Request)
    (hacc : filterBad env r = none) (hread : r.readErr = none) (hclose : r.closeErr = none) :
    ServeHTTP env target r =
      if HasPrefix r.Path (str "/secrets") then get env target (str "index.asc")
      else secret env target r.Body := by
  simp only [ServeHTTP, hacc, hread, hclose]

/-- C9, the counterexample: a POST to `/secrets` with content type
`application/json` passes the filter, but its body cannot be read to the end;
the proxy answers 500 and fetches nothing.  And when the upstream answers 200
with the body `B` but closing that body fails, the proxy answers 500. -/
theorem broken_body_is_not_forwarded :
    filterBad sampleProxyEnv brokenBodyRequest = none ∧
    indexPath brokenBodyRequest.Path ∧
    ServeHTTP sampleProxyEnv (str "http://127.0.0.1:80/") brokenBodyRequest
      = ([], httpError (str "unexpected EOF") 500) ∧
    (ServeHTTP sampleProxyEnv (str "http://127.0.0.1:80/") brokenBodyRequest).1
      ≠ [str "http://127.0.0.1:80/" ++ str "index.asc"] ∧
    filterBad closeFailsProxyEnv sampleSecretRequest = none ∧
    ServeHTTP closeFailsProxyEnv (str "http://127.0.0.1:80/") sampleSecretRequest
      = ([str "http://127.0.0.1:80/example.com/alice.asc"],
         httpError (str "connection reset") 500) := by
  refine ⟨rfl, Or.inl rfl, rfl, ?_, rfl, ?_⟩
  · decide
  · decide

/-- C9, amended: for a request that passes the filter and whose body is read and
closed without error: an index address makes the proxy fetch
`target + index.asc`, whatever the body holds; a secret address whose body
decodes to path `p` and username `u` makes it fetch `target + p + "/" + u +
".asc"`; and when the upstream answers the fetch with 200 and the body `B`, the
proxy answers 200 with content type `application/json` and the JSON encoding of
the object whose field `response` is `B`. -/
theorem ServeHTTP_routes_and_wraps (env : ProxyEnv) (target : Bytes) (r : Request)
    (hacc : filterBad env r = none) (hread : r.readErr = none) (hclose : r.closeErr = none) :
    (indexPath r.Path →
      ∀ body : Bytes, (ServeHTTP env target { r with Body := body }).1 = [target ++ str "index.asc"]) ∧
    (secretPath r.Path → ∀ p u : Bytes, env.jsonDecode r.Body = .ok (p, u) →
      (ServeHTTP env target r).1 = [target ++ (p ++ str "/" ++ u ++ str ".asc")]) ∧
    (∀ (url B status : Bytes), (ServeHTTP env target r).1 = [url] →
      env.Get url = .ok { StatusCode := 200, Status := status, Body := .ok B, closeErr := none } →
      (ServeHTTP env target r).2 =
        { Status := 200, Header := [(str "Content-Type", str "application/json")],
          Body := env.jsonEncode B }) := by
  have hget : ∀ (name url B status : Bytes), (get env target name).1 = [url] →
      env.Get url = .ok { StatusCode := 200, Status := status, Body := .ok B, closeErr := none } →
      (get env target name).2 =
        { Status := 200, Header := [(str "Content-Type", str "application/json")],
          Body := env.jsonEncode B } := by
    intro name url B status hurl hup
    rw [get_fetches] at hurl
    have hu : target ++ name = url := by simpa using hurl
    unfold get
    simp only [hu, hup]
    simp
  refine ⟨?_, ?_, ?_⟩
  · intro hp body
    have hpre : HasPrefix ({ r with Body := body } : Request).Path (str "/secrets") = true :=
      indexPath_hasPrefix hp
    rw [ServeHTTP_forwarded env target { r with Body := body } hacc hread hclose, if_pos hpre]
    exact get_fetches env target _
  · intro hp p u hdec
    rw [ServeHTTP_forwarded env target r hacc hread hclose, secretPath_hasPrefix hp]
    simp only [secret, hdec, Bool.false_eq_true, if_false]
    exact get_fetches env target _
  · intro url B status hurl hup
    rw [ServeHTTP_forwarded env target r hacc hread hclose] at hurl ⊢
    split_ifs at hurl ⊢ with hpre
    · exact hget _ url B status hurl hup
    · unfold secret at hurl ⊢
      cases hdec : env.jsonDecode r.Body with
      | error e => simp [hdec] at hurl
      | ok pu =>
        simp only [hdec] at hurl ⊢
        exact hget _ url B status hurl hup

/-- C9 on the scenario: POST `/secret` for `example.com` and `alice`, upstream
answer 200 with body `B`. -/
theorem ServeHTTP_routes_and_wraps_witness :
    (ServeHTTP sampleProxyEnv (str "http://127.0.0.1:80/") sampleSecretRequest).1
      = [str "http://127.0.0.1:80/" ++ (str "example.com" ++ str "/" ++ str "alice" ++ str ".asc")] ∧
    (ServeHTTP sampleProxyEnv (str "http://127.0.0.1:80/") sampleSecretRequest).2
      = { Status := 200, Header := [(str "Content-Type", str "application/json")],
          Body := str "\x7b\"response\":\"B\"\x7d\n" } :=
  ⟨(ServeHTTP_routes_and_wraps sampleProxyEnv (str "http://127.0.0.1:80/") sampleSecretRequest
      rfl rfl rfl).2.1 (Or.inl rfl) (str "example.com") (str "alice") rfl,
   (ServeHTTP_routes_and_wraps sampleProxyEnv (str "http://127.0.0.1:80/") sampleSecretRequest
      rfl rfl rfl).2.2 (str "http://127.0.0.1:80/example.com/alice.asc") (str "B") (str "200 OK")
      (by decide) rfl⟩

/-! ## The index and the published tree -/

/-- C10 (the code at the failing input): for the location
`secrets/example.com/.gpg` the index row has path `example.com` and username
`example.com`, which address `target/example.com/example.com.asc`, while
`armorSecrets` writes `target/example.com/.asc`. -/
theorem index_and_tree_disagree_on_bare_suffix :
    enumerate (str "secrets") storeWithBareSuffix = ([str "secrets/example.com/.gpg"], none) ∧
    (indexItem (sampleEnv [] storeWithBareSuffix) (str "secrets") (str "secrets/example.com/.gpg")).Path
      = str "example.com" ∧
    (indexItem (sampleEnv [] storeWithBareSuffix) (str "secrets") (str "secrets/example.com/.gpg")).Username
      = str "example.com" ∧
    armorSecrets (sampleEnv [] storeWithBareSuffix) (str "secrets") (str "target")
        [str "secrets/example.com/.gpg"] []
      = ([.mkdirAll (str "target/example.com") 0o700,
          .osOpen (str "secrets/example.com/.gpg"),
          .writeFile (str "target/example.com/.asc") (sampleArmor [0xDE, 0xAD]) 0o600], none) ∧
    Join [str "target", str "example.com", str "example.com" ++ str ".asc"]
      ≠ str "target/example.com/.asc" := by
  decide

end PassServer
